import Mathlib

/-!
Verification development for the DBSCAN clustering algorithm of cluster.js
(src/lib/algorithms/dbscan.js, with the Euclidean distance helper of
src/lib/util.js).

The JavaScript source is embedded shallowly:

* a point (`obj`) is a list of rational coordinates, one per (ordered)
  dimension key; `util.distance` takes the square root of the sum of squared
  coordinate differences, and every use of it in dbscan.js is a comparison
  `distance(p, q) < eps`, which for `0 < eps` is equivalent to
  `sqDist p q < eps ^ 2` (lemma `sqrt_dist_lt_iff` below); the executable
  development therefore carries the squared form `sqDist`;
* the per-point metadata objects of `run` become the structure `Meta`
  (fields `visited`, `neighbors`, `cluster`, `obj`); the sparse JS array
  `neighbors` (entries `true` / `false` / absent) becomes
  `Nat → Option Bool`;
* the `cluster` field values `false` / `'N'` / positive number become the
  inductive `CLabel` (`unassigned` / `noise` / `cid k`).  The JS truthiness
  test `!npt.cluster` in `expandCluster` is `cluster = unassigned`: the only
  falsy value the field ever holds is the initial `false`, since identifiers
  start at 1 (`cluster++` from 0) so `cid 0` never occurs and `'N'` is truthy;
* mutation of the shared metadata array becomes explicit state passing of a
  `List Meta` table; `_.each` loops become structural recursion over the list
  of iterated indices;
* `neighborhood`'s line `(tpt.neighbors[i] === false) && return;` is an
  early continue for the current `_.each` iteration (skip the point whose
  cached comparison against `i` is `false`); it is modelled as such;
* the distance computations are instrumented: each computed pair of indices
  `(i, ti)` (query target first) is recorded, so that "the distance was
  computed" is observable; the `comp` / `log` components carry this record
  and have no effect on the table;
* `expandCluster`'s unused parameters `pt, i` and the `console.log` debug
  statement are dropped; recursion is modelled with explicit fuel
  (`expandCluster` in the source terminates because each self-call is
  preceded by flipping one `visited` flag from false to true, so the
  recursion depth never exceeds the table length; `run` supplies the table
  length as fuel, which that bound makes sufficient: a call at depth d is
  preceded by d distinct flips, hence d never exceeds the table length);
* in `run`, `_.where(metadata, {visited: false})` is evaluated once, before
  the scan starts, at which moment every freshly built row has
  `visited: false`; the filter (modelled by `scanOrder`) therefore returns
  the whole table and the scan callback runs for every index in table order;
  the callback position argument `i` consequently coincides with the table
  index.
-/

namespace ClusterJS

set_option allowUnsafeReducibility true

attribute [local semireducible] Rat.add Rat.sub Rat.mul

/-- The `cluster` field of a metadata record: JS `false` (initial value),
the noise marker `'N'`, or a numeric cluster identifier. -/
inductive CLabel where
  | unassigned
  | noise
  | cid (k : Nat)
deriving DecidableEq

/-- One metadata record of `run`: `{"visited": ..., "neighbors": ...,
'cluster': ..., "obj": ...}`.  The sparse neighbor array is a map from the
other point's index to the cached threshold comparison. -/
structure Meta where
  visited : Bool
  neighbors : Nat → Option Bool
  cluster : CLabel
  obj : List ℚ

instance : Inhabited Meta := ⟨⟨false, fun _ => none, .unassigned, []⟩⟩

/-- Squared Euclidean distance: the sum under the square root in
`util.distance` (`_.reduce` over the shared dimension keys of the squared
coordinate differences). -/
def sqDist (p q : List ℚ) : ℚ := (List.zipWith (fun a b => (b - a) ^ 2) p q).sum

/-- The comparison `util.distance(p, q) < eps` as executed by dbscan.js,
in squared form (equivalent for positive `eps`, see `sqrt_dist_lt_iff`). -/
def nearB (eps : ℚ) (p q : List ℚ) : Bool := decide (sqDist p q < eps ^ 2)

/-- The raw point stored at index `j` of the metadata table. -/
def objAt (tbl : List Meta) (j : Nat) : List ℚ := (tbl.getD j default).obj

/-- In-place mutation of the record at index `i` (no-op when out of range,
matching that the JS code only ever touches existing indices). -/
def upd (tbl : List Meta) (i : Nat) (f : Meta → Meta) : List Meta :=
  tbl.set i (f (tbl.getD i default))

/-- Result of one `neighborhood` call: the returned `neigh` array, the
updated metadata table, and the instrumentation record of the index pairs
whose distance was computed during the call. -/
structure NbRes where
  neigh : List Nat
  tbl : List Meta
  comp : List (Nat × Nat)

/-- The `_.each(metadata, ...)` loop body of `neighborhood`, iterating the
remaining indices `tis`.  For each index `ti`: if the other point's cache
records `false` for `i`, skip; if it records `true` or `ti` is the target
itself, push without recomputing; otherwise compute the distance, cache the
outcome in the target's own row and push on success. -/
def nbLoop (eps : ℚ) (i : Nat) : List Nat → List Meta → List Nat → List (Nat × Nat) → NbRes
  | [], tbl, acc, comp => ⟨acc, tbl, comp⟩
  | ti :: rest, tbl, acc, comp =>
    match (tbl.getD ti default).neighbors i with
    | some false => nbLoop eps i rest tbl acc comp
    | some true => nbLoop eps i rest tbl (acc ++ [ti]) comp
    | none =>
      if ti = i then
        nbLoop eps i rest tbl (acc ++ [ti]) comp
      else
        let b := nearB eps (objAt tbl i) (objAt tbl ti)
        nbLoop eps i rest
          (upd tbl i (fun m =>
            { m with neighbors := fun j => if j = ti then some b else m.neighbors j }))
          (if b then acc ++ [ti] else acc) (comp ++ [(i, ti)])

/-- `neighborhood(metadata, pt, i, eps)` with `pt = metadata[i]` (which is
how both call sites invoke it). -/
def neighborhood (tbl : List Meta) (i : Nat) (eps : ℚ) : NbRes :=
  nbLoop eps i (List.range tbl.length) tbl [] []

/-- `_.union(a, b)`: unique values of the concatenation, keeping the first
occurrence of each value, in order. -/
def jsUnion (a b : List Nat) : List Nat :=
  (a ++ b).foldl (fun acc x => if x ∈ acc then acc else acc ++ [x]) []

/-- The body of the `_.each(neigh, ...)` loop of `expandCluster` for one
frontier member `ni`: label it with `c` if unassigned (`!npt.cluster`), and
if it was unvisited, visit it and query its neighborhood.  Returns the
updated table, the distance pairs computed, and — when the fresh
neighborhood is strictly larger than `minPts` — the frontier
`_.union(neigh, nptNeigh)` on which the source then recurses. -/
def expandVisit (minPts : Nat) (eps : ℚ) (c : Nat) (neigh : List Nat) (ni : Nat)
    (tbl : List Meta) : List Meta × List (Nat × Nat) × Option (List Nat) :=
  let tbl1 :=
    if (tbl.getD ni default).cluster = CLabel.unassigned then
      upd tbl ni (fun m => { m with cluster := CLabel.cid c })
    else tbl
  if (tbl1.getD ni default).visited then (tbl1, [], none)
  else
    let tbl2 := upd tbl1 ni (fun m => { m with visited := true })
    let r := neighborhood tbl2 ni eps
    if minPts < r.neigh.length then (r.tbl, r.comp, some (jsUnion neigh r.neigh))
    else (r.tbl, r.comp, none)

/-- The `_.each(neigh, ...)` loop of `expandCluster` over the pending suffix
of the frontier: run `expandVisit` on each member and, when it requests it,
run the deeper expansion (`goDeeper`, the self-recursion of the source) on
the union frontier before resuming with the rest. -/
def expandStepper
    (goDeeper : List Nat → List Meta → List (Nat × Nat) → List Meta × List (Nat × Nat))
    (minPts : Nat) (eps : ℚ) (c : Nat) (neigh : List Nat) :
    List Nat → List Meta → List (Nat × Nat) → List Meta × List (Nat × Nat)
  | [], tbl, log => (tbl, log)
  | ni :: rest, tbl, log =>
    let v := expandVisit minPts eps c neigh ni tbl
    match v.2.2 with
    | none => expandStepper goDeeper minPts eps c neigh rest v.1 (log ++ v.2.1)
    | some nn =>
      let d := goDeeper nn v.1 (log ++ v.2.1)
      expandStepper goDeeper minPts eps c neigh rest d.1 d.2

/-- `expandCluster(metadata, cluster, pt, i, neigh, minPts, eps)`, with
explicit fuel bounding the depth of the self-recursion (the unused `pt, i`
arguments are dropped).  At fuel 0 the deeper expansion is skipped; `run`
passes the table length, which bounds the depth actually reached because
every self-call is preceded by flipping a distinct `visited` flag. -/
def expandCluster (minPts : Nat) (eps : ℚ) (c : Nat) :
    Nat → List Nat → List Nat → List Meta → List (Nat × Nat) → List Meta × List (Nat × Nat)
  | 0, neigh, pending, tbl, log =>
    expandStepper (fun _ tbl log => (tbl, log)) minPts eps c neigh pending tbl log
  | fuel + 1, neigh, pending, tbl, log =>
    expandStepper (fun nn tbl log => expandCluster minPts eps c fuel nn nn tbl log)
      minPts eps c neigh pending tbl log

/-- The scan state of `run`: the `cluster` counter, the metadata table, and
the instrumentation log of all computed distance pairs. -/
structure RState where
  counter : Nat
  tbl : List Meta
  log : List (Nat × Nat)

/-- One iteration of the top-level scan callback of `run` at index `i`:
mark visited, query the neighborhood; label noise when it is smaller than
`minPoints`, otherwise allocate the next cluster identifier and expand. -/
def scanStep (fuel : Nat) (eps : ℚ) (minPoints : Nat) (s : RState) (i : Nat) : RState :=
  let tbl1 := upd s.tbl i (fun m => { m with visited := true })
  let r := neighborhood tbl1 i eps
  if r.neigh.length < minPoints then
    ⟨s.counter, upd r.tbl i (fun m => { m with cluster := CLabel.noise }), s.log ++ r.comp⟩
  else
    let c := s.counter + 1
    let d := expandCluster minPoints eps c fuel r.neigh r.neigh r.tbl (s.log ++ r.comp)
    ⟨c, d.1, d.2⟩

/-- The `_.each` over the scan list: fold `scanStep` over the pending
indices. -/
def runLoop (fuel : Nat) (eps : ℚ) (minPoints : Nat) (s : RState) (pending : List Nat) : RState :=
  pending.foldl (scanStep fuel eps minPoints) s

/-- The metadata table built by `run` from the input data: all rows
unvisited, empty neighbor cache, `cluster: false`. -/
def initTbl (data : List (List ℚ)) : List Meta :=
  data.map (fun o => ⟨false, fun _ => none, .unassigned, o⟩)

/-- `_.where(metadata, {"visited": false})`: the eager filter computed once
before the scan starts, as a list of table indices. -/
def scanOrder (tbl : List Meta) : List Nat :=
  (List.range tbl.length).filter (fun i => (tbl.getD i default).visited = false)

/-- `run(data, eps, minPoints)`, returning the final scan state. -/
def runState (data : List (List ℚ)) (eps : ℚ) (minPoints : Nat) : RState :=
  let tbl0 := initTbl data
  runLoop tbl0.length eps minPoints ⟨0, tbl0, []⟩ (scanOrder tbl0)

/-- The metadata table returned by `run(data, eps, minPoints)`. -/
def run (data : List (List ℚ)) (eps : ℚ) (minPoints : Nat) : List Meta :=
  (runState data eps minPoints).tbl

/-! ### Semantic notions

The specification-level notions the claims quantify over: truthfulness of
the cache (every cached entry agrees with the strict distance-threshold
test), the mathematical neighborhood of a point, core points, and
density-reachability (chains of core points, each within `eps` of the
next). -/

/-- Every cached comparison agrees with the strict squared-distance
threshold test on the stored points. -/
def CacheTruthful (eps : ℚ) (tbl : List Meta) : Prop :=
  ∀ a b v, (tbl.getD a default).neighbors b = some v →
    ((v = true) ↔ sqDist (objAt tbl a) (objAt tbl b) < eps ^ 2)

/-- The mathematical neighborhood of index `i` in a metadata table: all
indices within the threshold, together with `i` itself, in ascending
order. -/
def trueNbhd (tbl : List Meta) (eps : ℚ) (i : Nat) : List Nat :=
  (List.range tbl.length).filter (fun t => t == i || nearB eps (objAt tbl i) (objAt tbl t))

/-- The mathematical neighborhood of index `i` of the input data. -/
def trueNbhdD (data : List (List ℚ)) (eps : ℚ) (i : Nat) : List Nat :=
  (List.range data.length).filter (fun t => t == i || nearB eps (data.getD i []) (data.getD t []))

/-- Density-reachability (glossary of the spec): there is a chain of core
points, each within `eps` of the next, connecting `a` to `b`. -/
inductive DensityReachable (data : List (List ℚ)) (eps : ℚ) (minPts : Nat) : Nat → Nat → Prop where
  | direct (a b : Nat) : minPts ≤ (trueNbhdD data eps a).length →
      nearB eps (data.getD a []) (data.getD b []) = true → DensityReachable data eps minPts a b
  | step (a b c : Nat) : minPts ≤ (trueNbhdD data eps a).length →
      nearB eps (data.getD a []) (data.getD b []) = true →
      DensityReachable data eps minPts b c → DensityReachable data eps minPts a c

/-! ### The preservation relation for cluster expansion

`Pres eps c tblA tblB` records what any segment of a cluster-expansion call
with identifier `c` does to the table: the length and the stored points are
unchanged, truthfulness of the cache is preserved, and each row's label is
either untouched or went from unassigned to `cid c`. -/

def Pres (eps : ℚ) (c : Nat) (tblA tblB : List Meta) : Prop :=
  tblB.length = tblA.length ∧
  (∀ j, objAt tblB j = objAt tblA j) ∧
  (CacheTruthful eps tblA → CacheTruthful eps tblB) ∧
  (∀ j, (tblB.getD j default).cluster = (tblA.getD j default).cluster ∨
    ((tblA.getD j default).cluster = CLabel.unassigned ∧
      (tblB.getD j default).cluster = CLabel.cid c))

/-- The invariant carried along the top-level scan with pending index
suffix `P`: table geometry and points are fixed, the cache is truthful,
every processed index (not in `P`) whose mathematical neighborhood is
smaller than `minPts` is labeled noise, noise labels occur only on such
indices, every processed index is labeled, and cluster identifiers lie in
`[1, counter]`. -/
structure Inv (data : List (List ℚ)) (eps : ℚ) (minPts : Nat) (P : List Nat) (s : RState) :
    Prop where
  len : s.tbl.length = data.length
  objs : ∀ j, objAt s.tbl j = data.getD j []
  truthful : CacheTruthful eps s.tbl
  noiseDone : ∀ j, j < data.length → j ∉ P → (trueNbhdD data eps j).length < minPts →
    (s.tbl.getD j default).cluster = CLabel.noise
  noiseOnly : ∀ j, j < data.length → (s.tbl.getD j default).cluster = CLabel.noise →
    (trueNbhdD data eps j).length < minPts
  assigned : ∀ j, j < data.length → j ∉ P → (s.tbl.getD j default).cluster ≠ CLabel.unassigned
  labelsLe : ∀ j k, (s.tbl.getD j default).cluster = CLabel.cid k → 1 ≤ k ∧ k ≤ s.counter

/-- The number of points labeled noise by `run`. -/
def noiseCount (data : List (List ℚ)) (eps : ℚ) (minPts : Nat) : Nat :=
  ((run data eps minPts).filter (fun m => decide (m.cluster = CLabel.noise))).length

/-- Modelled from the spec: the scan step of the orchestrator that skips a
point whose visited flag is already true at the moment it is reached ("For
each point not yet visited, in table order: mark visited; compute its
neighborhood") — the check that dbscan.js's eagerly evaluated
`_.where(metadata, {visited: false})` does not perform. -/
def scanStepSkip (fuel : Nat) (eps : ℚ) (minPoints : Nat) (s : RState) (i : Nat) : RState :=
  if (s.tbl.getD i default).visited then s else scanStep fuel eps minPoints s i

/-- Modelled from the spec: the orchestrator with the lazy unvisited check
(`scanStepSkip`), for comparison with `runState`. -/
def runSkipState (data : List (List ℚ)) (eps : ℚ) (minPoints : Nat) : RState :=
  let tbl0 := initTbl data
  (List.range tbl0.length).foldl (scanStepSkip tbl0.length eps minPoints) ⟨0, tbl0, []⟩

/-- Concrete input for the counterexamples: four collinear 1-dimensional
points 0, 1, 2, 3.  With eps = 2 two points are neighbors exactly when
their coordinates differ by at most 1. -/
def data4 : List (List ℚ) := [[0], [1], [2], [3]]

/-- Concrete input for the cluster-identifier counterexample: a chain
0, 1, 2 and a separate pair 10, 11. -/
def data5 : List (List ℚ) := [[0], [1], [2], [10], [11]]

/-! ### Basic facts about the squared distance -/

theorem sqDist_nonneg (p q : List ℚ) : 0 ≤ sqDist p q := by
  apply List.sum_nonneg
  intro x hx
  induction p generalizing q with
  | nil => simp [sqDist] at hx
  | cons a p ih =>
    cases q with
    | nil => simp [sqDist] at hx
    | cons b q =>
      simp only [sqDist, List.zipWith_cons_cons, List.mem_cons] at hx
      rcases hx with h | h
      · rw [h]; exact sq_nonneg _
      · exact ih q h

theorem sqDist_comm (p q : List ℚ) : sqDist p q = sqDist q p := by
  induction p generalizing q with
  | nil => cases q <;> rfl
  | cons a p ih =>
    cases q with
    | nil => rfl
    | cons b q =>
      simp only [sqDist, List.zipWith_cons_cons, List.sum_cons] at *
      rw [ih q]
      ring_nf

theorem sqDist_self (p : List ℚ) : sqDist p p = 0 := by
  induction p with
  | nil => rfl
  | cons a p ih => simp [sqDist, List.zipWith_cons_cons] at *

/-- For positive `eps`, the comparison dbscan.js performs —
`Math.sqrt` of the sum of squared differences, strictly below `eps` — is
exactly the executable squared comparison `nearB`. -/
theorem sqrt_dist_lt_iff (p q : List ℚ) {eps : ℚ} (h : 0 < eps) :
    (Real.sqrt ((sqDist p q : ℚ) : ℝ) < (eps : ℝ)) ↔ nearB eps p q = true := by
  have heps : (0 : ℝ) < (eps : ℝ) := by exact_mod_cast h
  rw [Real.sqrt_lt' heps, nearB, decide_eq_true_eq]
  exact_mod_cast Iff.rfl

/-! ### Facts about the table update primitive -/

theorem length_upd (tbl : List Meta) (i : Nat) (f : Meta → Meta) :
    (upd tbl i f).length = tbl.length := List.length_set tbl i _

theorem getD_upd (tbl : List Meta) (i : Nat) (f : Meta → Meta) (j : Nat) :
    (upd tbl i f).getD j default =
      if i = j ∧ i < tbl.length then f (tbl.getD j default) else tbl.getD j default := by
  by_cases hij : i = j
  · subst hij
    by_cases hlen : i < tbl.length
    · simp [upd, List.getD_eq_getElem?_getD, List.getElem?_set, hlen]
    · have h1 : tbl[i]? = none := List.getElem?_eq_none (by omega)
      simp [upd, List.getD_eq_getElem?_getD, List.getElem?_set, hlen, h1]
  · simp [upd, List.getD_eq_getElem?_getD, List.getElem?_set, hij]

theorem getD_upd_ne (tbl : List Meta) (i : Nat) (f : Meta → Meta) {j : Nat} (h : i ≠ j) :
    (upd tbl i f).getD j default = tbl.getD j default := by
  rw [getD_upd]
  simp [h]

theorem getD_upd_self (tbl : List Meta) (i : Nat) (f : Meta → Meta) (h : i < tbl.length) :
    (upd tbl i f).getD i default = f (tbl.getD i default) := by
  rw [getD_upd]
  simp [h]

/-! ### Facts about `_.union` -/

theorem mem_uniqFold (x : Nat) :
    ∀ (l acc : List Nat),
      (x ∈ l.foldl (fun acc y => if y ∈ acc then acc else acc ++ [y]) acc) ↔ x ∈ acc ∨ x ∈ l := by
  intro l
  induction l with
  | nil => simp
  | cons y t ih =>
    intro acc
    by_cases hy : y ∈ acc
    · rw [List.foldl_cons, if_pos hy, ih]
      constructor
      · rintro (h | h)
        · exact Or.inl h
        · exact Or.inr (List.mem_cons_of_mem _ h)
      · rintro (h | h)
        · exact Or.inl h
        · rcases List.mem_cons.mp h with rfl | h
          · exact Or.inl hy
          · exact Or.inr h
    · rw [List.foldl_cons, if_neg hy, ih]
      simp only [List.mem_append, List.mem_singleton, List.mem_cons]
      tauto

theorem mem_jsUnion {a b : List Nat} {x : Nat} : x ∈ jsUnion a b ↔ x ∈ a ∨ x ∈ b := by
  rw [jsUnion, mem_uniqFold]
  simp

/-! ### Facts about the initial table and the scan order -/

theorem length_initTbl (data : List (List ℚ)) : (initTbl data).length = data.length :=
  List.length_map data _

theorem getD_initTbl (data : List (List ℚ)) (j : Nat) :
    (initTbl data).getD j default = ⟨false, fun _ => none, .unassigned, data.getD j []⟩ := by
  induction data generalizing j with
  | nil => cases j <;> rfl
  | cons o t ih =>
    cases j with
    | zero => rfl
    | succ j => simpa [initTbl] using ih j

theorem scanOrder_initTbl (data : List (List ℚ)) :
    scanOrder (initTbl data) = List.range data.length := by
  rw [scanOrder, length_initTbl]
  apply List.filter_eq_self.mpr
  intro i _
  simp only [decide_eq_true_eq, getD_initTbl]

theorem initTbl_truthful (eps : ℚ) (data : List (List ℚ)) :
    CacheTruthful eps (initTbl data) := by
  intro a b v h
  rw [getD_initTbl] at h
  exact absurd h (by simp)

/-! ### The neighbor query: frame, cache and correctness lemmas -/

theorem objAt_upd_preserve (tbl : List Meta) (i : Nat) (f : Meta → Meta)
    (hf : ∀ m, (f m).obj = m.obj) (j : Nat) : objAt (upd tbl i f) j = objAt tbl j := by
  unfold objAt
  rw [getD_upd]
  split
  · rw [hf]
  · rfl

/-- Writing the freshly computed comparison into the target's row keeps the
cache truthful. -/
theorem truthful_cacheWrite (eps : ℚ) (tbl : List Meta) (i ti : Nat)
    (ht : CacheTruthful eps tbl) :
    CacheTruthful eps (upd tbl i (fun m =>
      { m with neighbors := fun j =>
          if j = ti then some (nearB eps (objAt tbl i) (objAt tbl ti)) else m.neighbors j })) := by
  intro a b v h
  have hobj : ∀ j, objAt (upd tbl i (fun m =>
      { m with neighbors := fun j =>
          if j = ti then some (nearB eps (objAt tbl i) (objAt tbl ti)) else m.neighbors j })) j
      = objAt tbl j := objAt_upd_preserve tbl i _ (fun m => rfl)
  rw [hobj, hobj]
  rw [getD_upd] at h
  by_cases hcase : i = a ∧ i < tbl.length
  · rw [if_pos hcase] at h
    rcases hcase with ⟨rfl, hlen⟩
    simp only at h
    by_cases hb : b = ti
    · rw [if_pos hb] at h
      have hv : nearB eps (objAt tbl i) (objAt tbl ti) = v := Option.some.inj h
      subst hv
      subst hb
      simp [nearB]
    · rw [if_neg hb] at h
      exact ht i b v h
  · rw [if_neg hcase] at h
    exact ht a b v h

theorem nbLoop_length (eps : ℚ) (i : Nat) :
    ∀ (tis : List Nat) (tbl : List Meta) (acc : List Nat) (comp : List (Nat × Nat)),
      (nbLoop eps i tis tbl acc comp).tbl.length = tbl.length := by
  intro tis
  induction tis with
  | nil => intros; rfl
  | cons ti rest ih =>
    intro tbl acc comp
    simp only [nbLoop]
    cases h : (tbl.getD ti default).neighbors i with
    | none =>
      simp only [h]
      by_cases hti : ti = i
      · simp [hti, ih]
      · simp only [if_neg hti]
        rw [ih, length_upd]
    | some b =>
      cases b
      · simp only [h, ih]
      · simp only [h, ih]

theorem nbLoop_getD_ne (eps : ℚ) (i : Nat) {j : Nat} (hj : j ≠ i) :
    ∀ (tis : List Nat) (tbl : List Meta) (acc : List Nat) (comp : List (Nat × Nat)),
      ((nbLoop eps i tis tbl acc comp).tbl).getD j default = tbl.getD j default := by
  intro tis
  induction tis with
  | nil => intros; rfl
  | cons ti rest ih =>
    intro tbl acc comp
    simp only [nbLoop]
    cases h : (tbl.getD ti default).neighbors i with
    | none =>
      simp only [h]
      by_cases hti : ti = i
      · subst hti
        rw [if_pos rfl]
        exact ih _ _ _
      · simp only [if_neg hti]
        rw [ih, getD_upd_ne _ _ _ (Ne.symm hj)]
    | some b =>
      cases b
      · simp only [h]; exact ih _ _ _
      · simp only [h]; exact ih _ _ _

theorem nbLoop_row_i (eps : ℚ) (i : Nat) :
    ∀ (tis : List Nat) (tbl : List Meta) (acc : List Nat) (comp : List (Nat × Nat)),
      (((nbLoop eps i tis tbl acc comp).tbl).getD i default).visited
          = (tbl.getD i default).visited ∧
      (((nbLoop eps i tis tbl acc comp).tbl).getD i default).cluster
          = (tbl.getD i default).cluster ∧
      (((nbLoop eps i tis tbl acc comp).tbl).getD i default).obj
          = (tbl.getD i default).obj := by
  intro tis
  induction tis with
  | nil => intros; exact ⟨rfl, rfl, rfl⟩
  | cons ti rest ih =>
    intro tbl acc comp
    simp only [nbLoop]
    cases h : (tbl.getD ti default).neighbors i with
    | none =>
      simp only [h]
      by_cases hti : ti = i
      · subst hti
        rw [if_pos rfl]
        exact ih _ _ _
      · simp only [if_neg hti]
        rcases ih (upd tbl i (fun m =>
          { m with neighbors := fun j =>
              if j = ti then some (nearB eps (objAt tbl i) (objAt tbl ti))
              else m.neighbors j })) (if nearB eps (objAt tbl i) (objAt tbl ti)
                then acc ++ [ti] else acc) (comp ++ [(i, ti)]) with ⟨h1, h2, h3⟩
        rw [h1, h2, h3, getD_upd]
        split
        · exact ⟨rfl, rfl, rfl⟩
        · exact ⟨rfl, rfl, rfl⟩
    | some b =>
      cases b
      · simp only [h]; exact ih _ _ _
      · simp only [h]; exact ih _ _ _

theorem nbLoop_objAt (eps : ℚ) (i : Nat)
    (tis : List Nat) (tbl : List Meta) (acc : List Nat) (comp : List (Nat × Nat)) (j : Nat) :
    objAt ((nbLoop eps i tis tbl acc comp).tbl) j = objAt tbl j := by
  by_cases hj : j = i
  · subst hj
    exact (nbLoop_row_i eps j tis tbl acc comp).2.2
  · unfold objAt
    rw [nbLoop_getD_ne eps i hj]

theorem nbLoop_truthful (eps : ℚ) (i : Nat) :
    ∀ (tis : List Nat) (tbl : List Meta) (acc : List Nat) (comp : List (Nat × Nat)),
      CacheTruthful eps tbl → CacheTruthful eps (nbLoop eps i tis tbl acc comp).tbl := by
  intro tis
  induction tis with
  | nil => intro tbl acc comp ht; exact ht
  | cons ti rest ih =>
    intro tbl acc comp ht
    simp only [nbLoop]
    cases h : (tbl.getD ti default).neighbors i with
    | none =>
      simp only [h]
      by_cases hti : ti = i
      · simp only [if_pos hti]
        exact ih _ _ _ ht
      · simp only [if_neg hti]
        exact ih _ _ _ (truthful_cacheWrite eps tbl i ti ht)
    | some b =>
      cases b
      · simp only [h]; exact ih _ _ _ ht
      · simp only [h]; exact ih _ _ _ ht

/-- The distance computations performed by one neighbor-query loop: exactly
the pairs `(i, t)` for iterated `t` other than the target whose row does not
yet cache a comparison against the target. -/
theorem nbLoop_comp (eps : ℚ) (i : Nat) :
    ∀ (tis : List Nat) (tbl : List Meta) (acc : List Nat) (comp : List (Nat × Nat)),
      (nbLoop eps i tis tbl acc comp).comp =
        comp ++ (tis.filter (fun t =>
          decide (¬ t = i ∧ (tbl.getD t default).neighbors i = none))).map (fun t => (i, t)) := by
  intro tis
  induction tis with
  | nil => intros; simp [nbLoop]
  | cons ti rest ih =>
    intro tbl acc comp
    simp only [nbLoop]
    cases h : (tbl.getD ti default).neighbors i with
    | none =>
      simp only [h]
      by_cases hti : ti = i
      · subst hti
        rw [if_pos rfl, ih]
        congr 1
        simp [List.filter_cons]
      · rw [if_neg hti]
        rw [ih]
        have hfil : rest.filter (fun t =>
            decide (¬ t = i ∧ ((upd tbl i (fun m =>
              { m with neighbors := fun j =>
                  if j = ti then some (nearB eps (objAt tbl i) (objAt tbl ti))
                  else m.neighbors j })).getD t default).neighbors i = none))
            = rest.filter (fun t =>
              decide (¬ t = i ∧ (tbl.getD t default).neighbors i = none)) := by
          apply List.filter_congr
          intro t _
          by_cases hteq : t = i
          · simp [hteq]
          · rw [getD_upd_ne _ _ _ (Ne.symm hteq)]
        rw [hfil]
        have hpos : (decide (¬ ti = i ∧ (tbl.getD ti default).neighbors i = none)) = true := by
          simp only [decide_eq_true_eq]
          exact ⟨hti, h⟩
        simp only [List.filter_cons]
        rw [if_pos hpos]
        simp
    | some b =>
      cases b
      all_goals
        simp only [h]
        rw [ih]
        congr 1
        have hpredneg : ¬ ((decide (¬ ti = i ∧ (tbl.getD ti default).neighbors i = none)) = true) := by
          simp only [decide_eq_true_eq]
          rintro ⟨-, hc⟩
          rw [h] at hc
          exact Option.noConfusion hc
        simp only [List.filter_cons]
        rw [if_neg hpredneg]

/-- Entries of the target's row for indices that are not iterated are left
alone by the neighbor-query loop. -/
theorem nbLoop_cache_frame (eps : ℚ) (i : Nat) :
    ∀ (tis : List Nat) (tbl : List Meta) (acc : List Nat) (comp : List (Nat × Nat)) (s : Nat),
      s ∉ tis →
      (((nbLoop eps i tis tbl acc comp).tbl).getD i default).neighbors s
        = (tbl.getD i default).neighbors s := by
  intro tis
  induction tis with
  | nil => intros; rfl
  | cons ti rest ih =>
    intro tbl acc comp s hs
    have hs1 : s ≠ ti := fun hc => hs (hc ▸ List.mem_cons_self ti rest)
    have hs2 : s ∉ rest := fun hc => hs (List.mem_cons_of_mem ti hc)
    simp only [nbLoop]
    cases h : (tbl.getD ti default).neighbors i with
    | none =>
      simp only [h]
      by_cases hti : ti = i
      · subst hti
        rw [if_pos rfl]
        exact ih _ _ _ _ hs2
      · rw [if_neg hti, ih _ _ _ _ hs2, getD_upd]
        split
        · simp [if_neg hs1]
        · rfl
    | some b =>
      cases b
      · simp only [h]; exact ih _ _ _ _ hs2
      · simp only [h]; exact ih _ _ _ _ hs2

/-- After the neighbor-query loop, the target's row caches the comparison
against every iterated index whose own row had no cached comparison against
the target (the computed pairs). -/
theorem nbLoop_cache_computed (eps : ℚ) (i : Nat) :
    ∀ (tis : List Nat) (tbl : List Meta) (acc : List Nat) (comp : List (Nat × Nat)) (s : Nat),
      i < tbl.length → s ∈ tis → ¬ s = i → (tbl.getD s default).neighbors i = none →
      (((nbLoop eps i tis tbl acc comp).tbl).getD i default).neighbors s
        = some (nearB eps (objAt tbl i) (objAt tbl s)) := by
  intro tis
  induction tis with
  | nil => intro tbl acc comp s _ hmem; exact absurd hmem (List.not_mem_nil s)
  | cons ti rest ih =>
    intro tbl acc comp s hi hmem hsi hnone
    simp only [nbLoop]
    cases h : (tbl.getD ti default).neighbors i with
    | none =>
      simp only [h]
      by_cases hti : ti = i
      · subst hti
        rw [if_pos rfl]
        have hmem2 : s ∈ rest := by
          rcases List.mem_cons.mp hmem with rfl | hm
          · exact absurd rfl hsi
          · exact hm
        exact ih _ _ _ _ hi hmem2 hsi hnone
      · rw [if_neg hti]
        have hlen1 : i < (upd tbl i (fun m =>
            { m with neighbors := fun j =>
                if j = ti then some (nearB eps (objAt tbl i) (objAt tbl ti))
                else m.neighbors j })).length := by
          rw [length_upd]; exact hi
        have hobj : ∀ j, objAt (upd tbl i (fun m =>
            { m with neighbors := fun j =>
                if j = ti then some (nearB eps (objAt tbl i) (objAt tbl ti))
                else m.neighbors j })) j = objAt tbl j :=
          objAt_upd_preserve tbl i _ (fun m => rfl)
        by_cases hsmem : s ∈ rest
        · have hrow : ((upd tbl i (fun m =>
              { m with neighbors := fun j =>
                  if j = ti then some (nearB eps (objAt tbl i) (objAt tbl ti))
                  else m.neighbors j })).getD s default).neighbors i
              = (tbl.getD s default).neighbors i := by
            rw [getD_upd_ne _ _ _ (fun hc => hsi hc.symm)]
          rw [ih _ _ _ _ hlen1 hsmem hsi (hrow.trans hnone), hobj, hobj]
        · have hsti : s = ti := by
            rcases List.mem_cons.mp hmem with rfl | hm
            · rfl
            · exact absurd hm hsmem
          subst hsti
          rw [nbLoop_cache_frame eps i rest _ _ _ s hsmem, getD_upd_self _ _ _ hi]
          simp
    | some b =>
      have hsti : s ≠ ti := by
        intro hc
        rw [hc, h] at hnone
        exact Option.noConfusion hnone
      have hmem2 : s ∈ rest := by
        rcases List.mem_cons.mp hmem with rfl | hm
        · exact absurd rfl hsti
        · exact hm
      cases b
      · simp only [h]; exact ih _ _ _ _ hi hmem2 hsi hnone
      · simp only [h]; exact ih _ _ _ _ hi hmem2 hsi hnone

/-- Correctness of the neighbor-query loop on a truthful cache: it appends
exactly the iterated indices that are the target itself or lie strictly
within the threshold, in iteration order. -/
theorem nbLoop_neigh (eps : ℚ) (i : Nat) (heps : 0 < eps) :
    ∀ (tis : List Nat) (tbl : List Meta) (acc : List Nat) (comp : List (Nat × Nat)),
      CacheTruthful eps tbl →
      (nbLoop eps i tis tbl acc comp).neigh
        = acc ++ tis.filter (fun t => t == i || nearB eps (objAt tbl i) (objAt tbl t)) := by
  intro tis
  induction tis with
  | nil => intro tbl acc comp _; simp [nbLoop]
  | cons ti rest ih =>
    intro tbl acc comp ht
    have heps2 : (0 : ℚ) < eps ^ 2 := pow_pos heps 2
    simp only [nbLoop]
    cases h : (tbl.getD ti default).neighbors i with
    | none =>
      simp only [h]
      by_cases hti : ti = i
      · subst hti
        rw [if_pos rfl, ih _ _ _ ht]
        simp [List.filter_cons]
      · rw [if_neg hti]
        have hobj : ∀ j, objAt (upd tbl i (fun m =>
            { m with neighbors := fun j =>
                if j = ti then some (nearB eps (objAt tbl i) (objAt tbl ti))
                else m.neighbors j })) j = objAt tbl j :=
          objAt_upd_preserve tbl i _ (fun m => rfl)
        rw [ih _ _ _ (truthful_cacheWrite eps tbl i ti ht)]
        have hfil : rest.filter (fun t => t == i ||
            nearB eps (objAt (upd tbl i (fun m =>
              { m with neighbors := fun j =>
                  if j = ti then some (nearB eps (objAt tbl i) (objAt tbl ti))
                  else m.neighbors j })) i)
              (objAt (upd tbl i (fun m =>
              { m with neighbors := fun j =>
                  if j = ti then some (nearB eps (objAt tbl i) (objAt tbl ti))
                  else m.neighbors j })) t))
            = rest.filter (fun t => t == i || nearB eps (objAt tbl i) (objAt tbl t)) := by
          apply List.filter_congr
          intro t _
          rw [hobj, hobj]
        rw [hfil]
        have hbeq : (ti == i) = false := by
          simp [hti]
        simp only [List.filter_cons, hbeq, Bool.false_or]
        cases hb : nearB eps (objAt tbl i) (objAt tbl ti)
        · simp
        · simp
    | some b =>
      cases b
      · simp only [h]
        have hlt : ¬ sqDist (objAt tbl ti) (objAt tbl i) < eps ^ 2 := by
          intro hc
          have := (ht ti i false h).mpr hc
          exact Bool.noConfusion this
        have hti : ti ≠ i := by
          rintro rfl
          exact hlt (by rw [sqDist_self]; exact heps2)
        have hpred : ((ti == i || nearB eps (objAt tbl i) (objAt tbl ti)) = true) → False := by
          intro hc
          rcases Bool.or_eq_true_iff.mp hc with hc1 | hc2
          · exact hti (by simpa using hc1)
          · rw [nearB, decide_eq_true_eq, sqDist_comm] at hc2
            exact hlt hc2
        rw [ih _ _ _ ht]
        simp only [List.filter_cons]
        rw [if_neg hpred]
      · simp only [h]
        have hlt : sqDist (objAt tbl ti) (objAt tbl i) < eps ^ 2 := (ht ti i true h).mp rfl
        have hpred : (ti == i || nearB eps (objAt tbl i) (objAt tbl ti)) = true := by
          apply Bool.or_eq_true_iff.mpr
          right
          rw [nearB, decide_eq_true_eq, sqDist_comm]
          exact hlt
        rw [ih _ _ _ ht]
        simp only [List.filter_cons]
        rw [if_pos hpred]
        simp

/-! ### Corollaries for one `neighborhood` call -/

theorem nb_length (tbl : List Meta) (i : Nat) (eps : ℚ) :
    (neighborhood tbl i eps).tbl.length = tbl.length :=
  nbLoop_length eps i _ tbl [] []

theorem nb_getD_ne (tbl : List Meta) (i : Nat) (eps : ℚ) {j : Nat} (hj : j ≠ i) :
    ((neighborhood tbl i eps).tbl).getD j default = tbl.getD j default :=
  nbLoop_getD_ne eps i hj _ tbl [] []

theorem nb_row_i (tbl : List Meta) (i : Nat) (eps : ℚ) :
    (((neighborhood tbl i eps).tbl).getD i default).visited = (tbl.getD i default).visited ∧
    (((neighborhood tbl i eps).tbl).getD i default).cluster = (tbl.getD i default).cluster ∧
    (((neighborhood tbl i eps).tbl).getD i default).obj = (tbl.getD i default).obj :=
  nbLoop_row_i eps i _ tbl [] []

theorem nb_objAt (tbl : List Meta) (i : Nat) (eps : ℚ) (j : Nat) :
    objAt ((neighborhood tbl i eps).tbl) j = objAt tbl j :=
  nbLoop_objAt eps i _ tbl [] [] j

theorem nb_truthful (tbl : List Meta) (i : Nat) (eps : ℚ) (ht : CacheTruthful eps tbl) :
    CacheTruthful eps (neighborhood tbl i eps).tbl :=
  nbLoop_truthful eps i _ tbl [] [] ht

theorem nb_comp (tbl : List Meta) (i : Nat) (eps : ℚ) :
    (neighborhood tbl i eps).comp =
      ((List.range tbl.length).filter (fun t =>
        decide (¬ t = i ∧ (tbl.getD t default).neighbors i = none))).map (fun t => (i, t)) := by
  rw [neighborhood, nbLoop_comp]
  simp

/-- Membership in the computed-pairs record of one neighbor query. -/
theorem nb_comp_mem (tbl : List Meta) (i : Nat) (eps : ℚ) (t : Nat) :
    ((i, t) ∈ (neighborhood tbl i eps).comp) ↔
      (t < tbl.length ∧ ¬ t = i ∧ (tbl.getD t default).neighbors i = none) := by
  rw [nb_comp]
  constructor
  · intro h
    rcases List.mem_map.mp h with ⟨a, ha, hEq⟩
    have hat : a = t := by
      have := congrArg Prod.snd hEq
      simpa using this
    subst hat
    rcases List.mem_filter.mp ha with ⟨hr, hp⟩
    rcases (decide_eq_true_eq).mp hp with ⟨h1, h2⟩
    exact ⟨List.mem_range.mp hr, h1, h2⟩
  · rintro ⟨h1, h2, h3⟩
    apply List.mem_map.mpr
    refine ⟨t, List.mem_filter.mpr ⟨List.mem_range.mpr h1, ?_⟩, rfl⟩
    exact decide_eq_true ⟨h2, h3⟩

/-- Every pair recorded by a neighbor query has the query target as its
first component. -/
theorem nb_comp_fst (tbl : List Meta) (i : Nat) (eps : ℚ) {p : Nat × Nat}
    (h : p ∈ (neighborhood tbl i eps).comp) : p.1 = i := by
  rw [nb_comp] at h
  rcases List.mem_map.mp h with ⟨a, _, hEq⟩
  rw [← hEq]

/-- After a neighbor query, the target's row caches the comparison against
every index whose distance the call computed. -/
theorem nb_cache_computed (tbl : List Meta) (i : Nat) (eps : ℚ) (t : Nat)
    (hi : i < tbl.length) (ht : t < tbl.length) (hti : ¬ t = i)
    (hnone : (tbl.getD t default).neighbors i = none) :
    (((neighborhood tbl i eps).tbl).getD i default).neighbors t
      = some (nearB eps (objAt tbl i) (objAt tbl t)) :=
  nbLoop_cache_computed eps i _ tbl [] [] t hi (List.mem_range.mpr ht) hti hnone

/-- On a truthful cache the neighbor query returns exactly the mathematical
neighborhood. -/
theorem nb_correct (tbl : List Meta) (i : Nat) (eps : ℚ) (heps : 0 < eps)
    (ht : CacheTruthful eps tbl) :
    (neighborhood tbl i eps).neigh = trueNbhd tbl eps i := by
  rw [neighborhood, nbLoop_neigh eps i heps _ tbl [] [] ht]
  rfl

theorem pres_refl (eps : ℚ) (c : Nat) (tbl : List Meta) : Pres eps c tbl tbl :=
  ⟨rfl, fun _ => rfl, id, fun _ => Or.inl rfl⟩

theorem pres_trans {eps : ℚ} {c : Nat} {t1 t2 t3 : List Meta}
    (h12 : Pres eps c t1 t2) (h23 : Pres eps c t2 t3) : Pres eps c t1 t3 := by
  obtain ⟨l12, o12, c12, lab12⟩ := h12
  obtain ⟨l23, o23, c23, lab23⟩ := h23
  refine ⟨l23.trans l12, fun j => (o23 j).trans (o12 j), fun h => c23 (c12 h), fun j => ?_⟩
  rcases lab23 j with h3 | ⟨h3a, h3b⟩
  · rcases lab12 j with h2 | ⟨h2a, h2b⟩
    · exact Or.inl (h3.trans h2)
    · exact Or.inr ⟨h2a, h3.trans h2b⟩
  · rcases lab12 j with h2 | ⟨h2a, h2b⟩
    · exact Or.inr ⟨h2.symm.trans h3a, h3b⟩
    · rw [h2b] at h3a
      exact absurd h3a (by simp)

theorem pres_cluster_stable {eps : ℚ} {c : Nat} {t1 t2 : List Meta} {j : Nat}
    (hp : Pres eps c t1 t2) (h : (t1.getD j default).cluster ≠ CLabel.unassigned) :
    (t2.getD j default).cluster = (t1.getD j default).cluster := by
  rcases hp.2.2.2 j with h1 | ⟨h1, _⟩
  · exact h1
  · exact absurd h1 h

theorem truthful_upd_keep {eps : ℚ} (tbl : List Meta) (i : Nat) (f : Meta → Meta)
    (hobj : ∀ m, (f m).obj = m.obj) (hnb : ∀ m, (f m).neighbors = m.neighbors)
    (ht : CacheTruthful eps tbl) : CacheTruthful eps (upd tbl i f) := by
  intro a b v h
  have ho : ∀ j, objAt (upd tbl i f) j = objAt tbl j := objAt_upd_preserve tbl i f hobj
  rw [ho, ho]
  rw [getD_upd] at h
  by_cases hc : i = a ∧ i < tbl.length
  · rw [if_pos hc, hnb] at h
    exact ht a b v h
  · rw [if_neg hc] at h
    exact ht a b v h

theorem pres_upd_keep (eps : ℚ) (c : Nat) (tbl : List Meta) (i : Nat) (f : Meta → Meta)
    (hobj : ∀ m, (f m).obj = m.obj) (hnb : ∀ m, (f m).neighbors = m.neighbors)
    (hcl : ∀ m, (f m).cluster = m.cluster) : Pres eps c tbl (upd tbl i f) := by
  refine ⟨length_upd tbl i f, objAt_upd_preserve tbl i f hobj,
    truthful_upd_keep tbl i f hobj hnb, fun j => Or.inl ?_⟩
  rw [getD_upd]
  by_cases hc : i = j ∧ i < tbl.length
  · rw [if_pos hc, hcl]
  · rw [if_neg hc]

theorem pres_label_write (eps : ℚ) (c : Nat) (tbl : List Meta) (ni : Nat)
    (hun : (tbl.getD ni default).cluster = CLabel.unassigned) :
    Pres eps c tbl (upd tbl ni (fun m => { m with cluster := CLabel.cid c })) := by
  refine ⟨length_upd tbl ni _, objAt_upd_preserve tbl ni _ (fun m => rfl),
    truthful_upd_keep tbl ni _ (fun m => rfl) (fun m => rfl), fun j => ?_⟩
  rw [getD_upd]
  by_cases hc : ni = j ∧ ni < tbl.length
  · obtain ⟨rfl, hlen⟩ := hc
    rw [if_pos ⟨rfl, hlen⟩]
    exact Or.inr ⟨hun, rfl⟩
  · rw [if_neg hc]
    exact Or.inl rfl

theorem pres_nb (eps : ℚ) (c : Nat) (tbl : List Meta) (i : Nat) :
    Pres eps c tbl (neighborhood tbl i eps).tbl := by
  refine ⟨nb_length tbl i eps, nb_objAt tbl i eps, nb_truthful tbl i eps, fun j => Or.inl ?_⟩
  by_cases hj : j = i
  · subst hj
    exact (nb_row_i tbl j eps).2.1
  · rw [nb_getD_ne tbl i eps hj]

/-- One frontier-member step of cluster expansion satisfies the
preservation relation. -/
theorem expandVisit_pres (minPts : Nat) (eps : ℚ) (c : Nat) (neigh : List Nat) (ni : Nat)
    (tbl : List Meta) : Pres eps c tbl (expandVisit minPts eps c neigh ni tbl).1 := by
  simp only [expandVisit]
  split
  next hg =>
    have hp1 := pres_label_write eps c tbl ni hg
    split
    · exact hp1
    · split
      · exact pres_trans hp1 (pres_trans (pres_upd_keep eps c _ ni
          (fun m => { m with visited := true }) (fun m => rfl) (fun m => rfl)
          (fun m => rfl)) (pres_nb eps c _ ni))
      · exact pres_trans hp1 (pres_trans (pres_upd_keep eps c _ ni
          (fun m => { m with visited := true }) (fun m => rfl) (fun m => rfl)
          (fun m => rfl)) (pres_nb eps c _ ni))
  next hg =>
    split
    · exact pres_refl eps c tbl
    · split
      · exact pres_trans (pres_upd_keep eps c _ ni
          (fun m => { m with visited := true }) (fun m => rfl) (fun m => rfl)
          (fun m => rfl)) (pres_nb eps c _ ni)
      · exact pres_trans (pres_upd_keep eps c _ ni
          (fun m => { m with visited := true }) (fun m => rfl) (fun m => rfl)
          (fun m => rfl)) (pres_nb eps c _ ni)

/-- If a frontier member is an existing row that is unassigned when its
expansion step starts, the step labels it with the cluster identifier. -/
theorem expandVisit_label_self (minPts : Nat) (eps : ℚ) (c : Nat) (neigh : List Nat) (ni : Nat)
    (tbl : List Meta) (hlen : ni < tbl.length)
    (hun : (tbl.getD ni default).cluster = CLabel.unassigned) :
    ((expandVisit minPts eps c neigh ni tbl).1.getD ni default).cluster = CLabel.cid c := by
  simp only [expandVisit]
  rw [if_pos hun]
  have h1 : ((upd tbl ni (fun m => { m with cluster := CLabel.cid c })).getD ni default).cluster
      = CLabel.cid c := by
    rw [getD_upd_self _ _ _ hlen]
  have hlen1 : ni < (upd tbl ni (fun m => { m with cluster := CLabel.cid c })).length := by
    rw [length_upd]; exact hlen
  have h2 : ((upd (upd tbl ni (fun m => { m with cluster := CLabel.cid c })) ni
      (fun m => { m with visited := true })).getD ni default).cluster = CLabel.cid c := by
    rw [getD_upd_self _ _ _ hlen1]
    exact h1
  split
  · exact h1
  · split
    · exact ((nb_row_i (upd (upd tbl ni (fun m => { m with cluster := CLabel.cid c })) ni
        (fun m => { m with visited := true })) ni eps).2.1).trans h2
    · exact ((nb_row_i (upd (upd tbl ni (fun m => { m with cluster := CLabel.cid c })) ni
        (fun m => { m with visited := true })) ni eps).2.1).trans h2

theorem stepper_pres
    (goDeeper : List Nat → List Meta → List (Nat × Nat) → List Meta × List (Nat × Nat))
    (minPts : Nat) (eps : ℚ) (c : Nat) (neigh : List Nat)
    (hgo : ∀ nn tbl log, Pres eps c tbl (goDeeper nn tbl log).1) :
    ∀ (pending : List Nat) (tbl : List Meta) (log : List (Nat × Nat)),
      Pres eps c tbl (expandStepper goDeeper minPts eps c neigh pending tbl log).1 := by
  intro pending
  induction pending with
  | nil => intro tbl log; exact pres_refl eps c tbl
  | cons ni rest ih =>
    intro tbl log
    simp only [expandStepper]
    cases hv : (expandVisit minPts eps c neigh ni tbl).2.2 with
    | none =>
      exact pres_trans (expandVisit_pres minPts eps c neigh ni tbl) (ih _ _)
    | some nn =>
      exact pres_trans (expandVisit_pres minPts eps c neigh ni tbl)
        (pres_trans (hgo nn _ _) (ih _ _))

theorem expandCluster_pres (minPts : Nat) (eps : ℚ) (c : Nat) :
    ∀ (fuel : Nat) (neigh pending : List Nat) (tbl : List Meta) (log : List (Nat × Nat)),
      Pres eps c tbl (expandCluster minPts eps c fuel neigh pending tbl log).1 := by
  intro fuel
  induction fuel with
  | zero =>
    intro neigh pending tbl log
    exact stepper_pres _ minPts eps c neigh (fun nn tbl log => pres_refl eps c tbl) pending tbl log
  | succ f ih =>
    intro neigh pending tbl log
    exact stepper_pres _ minPts eps c neigh (fun nn tbl log => ih nn nn tbl log) pending tbl log

theorem pres_reach_end {eps : ℚ} {c : Nat} {tbl tblX final : List Meta} {j : Nat}
    (hp : Pres eps c tbl tblX) (hstable : Pres eps c tblX final)
    (hnext : (tblX.getD j default).cluster = CLabel.unassigned →
      (final.getD j default).cluster = CLabel.cid c)
    (hun : (tbl.getD j default).cluster = CLabel.unassigned) :
    (final.getD j default).cluster = CLabel.cid c := by
  rcases hp.2.2.2 j with h1 | ⟨_, h1b⟩
  · exact hnext (h1.trans hun)
  · exact (pres_cluster_stable hstable (by rw [h1b]; simp)).trans h1b

/-- Every member of the pending frontier that denotes an existing row and is
unassigned when the loop starts ends the loop labeled `cid c`. -/
theorem stepper_reaches
    (goDeeper : List Nat → List Meta → List (Nat × Nat) → List Meta × List (Nat × Nat))
    (minPts : Nat) (eps : ℚ) (c : Nat) (neigh : List Nat)
    (hgo : ∀ nn tbl log, Pres eps c tbl (goDeeper nn tbl log).1) :
    ∀ (pending : List Nat) (tbl : List Meta) (log : List (Nat × Nat)) (j : Nat),
      j ∈ pending → j < tbl.length →
      (tbl.getD j default).cluster = CLabel.unassigned →
      ((expandStepper goDeeper minPts eps c neigh pending tbl log).1.getD j default).cluster
        = CLabel.cid c := by
  intro pending
  induction pending with
  | nil => intro tbl log j hj _ _; exact absurd hj (List.not_mem_nil j)
  | cons ni rest ih =>
    intro tbl log j hj hjlen hun
    simp only [expandStepper]
    by_cases hjni : j = ni
    · subst hjni
      have hlab : ((expandVisit minPts eps c neigh j tbl).1.getD j default).cluster
          = CLabel.cid c := expandVisit_label_self minPts eps c neigh j tbl hjlen hun
      cases hv : (expandVisit minPts eps c neigh j tbl).2.2 with
      | none =>
        have hst := stepper_pres goDeeper minPts eps c neigh hgo rest
          (expandVisit minPts eps c neigh j tbl).1
          (log ++ (expandVisit minPts eps c neigh j tbl).2.1)
        exact (pres_cluster_stable hst (by rw [hlab]; simp)).trans hlab
      | some nn =>
        have hst := pres_trans
          (hgo nn (expandVisit minPts eps c neigh j tbl).1
            (log ++ (expandVisit minPts eps c neigh j tbl).2.1))
          (stepper_pres goDeeper minPts eps c neigh hgo rest
            (goDeeper nn (expandVisit minPts eps c neigh j tbl).1
              (log ++ (expandVisit minPts eps c neigh j tbl).2.1)).1
            (goDeeper nn (expandVisit minPts eps c neigh j tbl).1
              (log ++ (expandVisit minPts eps c neigh j tbl).2.1)).2)
        exact (pres_cluster_stable hst (by rw [hlab]; simp)).trans hlab
    · have hjrest : j ∈ rest := by
        rcases List.mem_cons.mp hj with h | h
        · exact absurd h hjni
        · exact h
      cases hv : (expandVisit minPts eps c neigh ni tbl).2.2 with
      | none =>
        have hpv := expandVisit_pres minPts eps c neigh ni tbl
        have hlen2 : j < (expandVisit minPts eps c neigh ni tbl).1.length := by
          rw [hpv.1]; exact hjlen
        exact pres_reach_end hpv (stepper_pres goDeeper minPts eps c neigh hgo rest _ _)
          (fun hunX => ih _ _ j hjrest hlen2 hunX) hun
      | some nn =>
        have hpv := pres_trans (expandVisit_pres minPts eps c neigh ni tbl)
          (hgo nn (expandVisit minPts eps c neigh ni tbl).1
            (log ++ (expandVisit minPts eps c neigh ni tbl).2.1))
        have hlen2 : j < (goDeeper nn (expandVisit minPts eps c neigh ni tbl).1
            (log ++ (expandVisit minPts eps c neigh ni tbl).2.1)).1.length := by
          rw [hpv.1]; exact hjlen
        exact pres_reach_end hpv (stepper_pres goDeeper minPts eps c neigh hgo rest _ _)
          (fun hunX => ih _ _ j hjrest hlen2 hunX) hun

/-- Every member of the frontier passed to `expandCluster` that denotes an
existing row and is unassigned at call time ends the call labeled `cid c`. -/
theorem expandCluster_reaches (minPts : Nat) (eps : ℚ) (c : Nat)
    (fuel : Nat) (neigh pending : List Nat) (tbl : List Meta) (log : List (Nat × Nat)) (j : Nat)
    (hj : j ∈ pending) (hjlen : j < tbl.length)
    (hun : (tbl.getD j default).cluster = CLabel.unassigned) :
    ((expandCluster minPts eps c fuel neigh pending tbl log).1.getD j default).cluster
      = CLabel.cid c := by
  cases fuel with
  | zero =>
    exact stepper_reaches _ minPts eps c neigh (fun nn tbl log => pres_refl eps c tbl)
      pending tbl log j hj hjlen hun
  | succ f =>
    exact stepper_reaches _ minPts eps c neigh
      (fun nn tbl log => expandCluster_pres minPts eps c f nn nn tbl log)
      pending tbl log j hj hjlen hun

/-! ### The scan invariant -/

theorem trueNbhd_eq {tbl : List Meta} {data : List (List ℚ)} {eps : ℚ}
    (h1 : tbl.length = data.length) (h2 : ∀ j, objAt tbl j = data.getD j []) (i : Nat) :
    trueNbhd tbl eps i = trueNbhdD data eps i := by
  unfold trueNbhd trueNbhdD
  rw [h1]
  apply List.filter_congr
  intro t _
  rw [h2, h2]

theorem scanStep_inv {data : List (List ℚ)} {eps : ℚ} {minPts fuel : Nat}
    (heps : 0 < eps) {P : List Nat} {s : RState} {i : Nat}
    (hInv : Inv data eps minPts (i :: P) s) (hi : i < data.length) :
    Inv data eps minPts P (scanStep fuel eps minPts s i) := by
  obtain ⟨hlen, hobjs, htr, hnd, hno, has, hle⟩ := hInv
  simp only [scanStep]
  set T1 := upd s.tbl i (fun m => { m with visited := true }) with hT1def
  have h1len : T1.length = data.length := by rw [hT1def, length_upd]; exact hlen
  have h1objs : ∀ j, objAt T1 j = data.getD j [] := fun j =>
    (objAt_upd_preserve s.tbl i (fun m => { m with visited := true })
      (fun m => rfl) j).trans (hobjs j)
  have h1tr : CacheTruthful eps T1 :=
    truthful_upd_keep s.tbl i (fun m => { m with visited := true })
      (fun m => rfl) (fun m => rfl) htr
  have h1clus : ∀ j, (T1.getD j default).cluster = (s.tbl.getD j default).cluster := by
    intro j
    rw [hT1def, getD_upd]
    split <;> rfl
  set R := neighborhood T1 i eps with hRdef
  have hrneigh : R.neigh = trueNbhdD data eps i := by
    rw [hRdef, nb_correct T1 i eps heps h1tr, trueNbhd_eq h1len h1objs]
  have hrlen : R.tbl.length = data.length := by rw [hRdef, nb_length]; exact h1len
  have hrobjs : ∀ j, objAt R.tbl j = data.getD j [] := fun j =>
    (nb_objAt T1 i eps j).trans (h1objs j)
  have hrtr : CacheTruthful eps R.tbl := nb_truthful T1 i eps h1tr
  have hrclus : ∀ j, (R.tbl.getD j default).cluster = (s.tbl.getD j default).cluster := by
    intro j
    by_cases hj : j = i
    · subst hj
      exact ((nb_row_i T1 j eps).2.1).trans (h1clus j)
    · rw [hRdef, nb_getD_ne T1 i eps hj]
      exact h1clus j
  have hnotmem : ∀ j, j ≠ i → j ∉ P → j ∉ i :: P := by
    intro j hji hjP hc
    rcases List.mem_cons.mp hc with h | h
    · exact hji h
    · exact hjP h
  split
  next hsmall =>
    have hinc : (trueNbhdD data eps i).length < minPts := by rw [← hrneigh]; exact hsmall
    refine ⟨?_, ?_, ?_, ?_, ?_, ?_, ?_⟩
    · rw [length_upd]; exact hrlen
    · exact fun j => (objAt_upd_preserve R.tbl i (fun m => { m with cluster := CLabel.noise })
        (fun m => rfl) j).trans (hrobjs j)
    · exact truthful_upd_keep R.tbl i (fun m => { m with cluster := CLabel.noise })
        (fun m => rfl) (fun m => rfl) hrtr
    · intro j hjlen hjP hjnc
      by_cases hji : j = i
      · subst hji
        rw [getD_upd_self _ _ _ (by rw [hrlen]; exact hjlen)]
      · rw [getD_upd_ne _ _ _ (fun hc => hji hc.symm), hrclus]
        exact hnd j hjlen (hnotmem j hji hjP) hjnc
    · intro j hjlen hcl
      by_cases hji : j = i
      · subst hji
        exact hinc
      · rw [getD_upd_ne _ _ _ (fun hc => hji hc.symm), hrclus] at hcl
        exact hno j hjlen hcl
    · intro j hjlen hjP
      by_cases hji : j = i
      · subst hji
        rw [getD_upd_self _ _ _ (by rw [hrlen]; exact hjlen)]
        simp
      · rw [getD_upd_ne _ _ _ (fun hc => hji hc.symm), hrclus]
        exact has j hjlen (hnotmem j hji hjP)
    · intro j k hk
      by_cases hji : j = i
      · subst hji
        rw [getD_upd_self _ _ _ (by rw [hrlen]; exact hi)] at hk
        exact absurd hk (by simp)
      · rw [getD_upd_ne _ _ _ (fun hc => hji hc.symm), hrclus] at hk
        exact hle j k hk
  next hbig =>
    have hcore : minPts ≤ (trueNbhdD data eps i).length := by
      rw [← hrneigh]; omega
    have himem : i ∈ R.neigh := by
      rw [hrneigh]
      exact List.mem_filter.mpr ⟨List.mem_range.mpr hi, by simp⟩
    have hpres := expandCluster_pres minPts eps (s.counter + 1) fuel R.neigh R.neigh R.tbl
      (s.log ++ R.comp)
    have hdlab : ∀ j,
        ((expandCluster minPts eps (s.counter + 1) fuel R.neigh R.neigh R.tbl
          (s.log ++ R.comp)).1.getD j default).cluster = (s.tbl.getD j default).cluster ∨
        ((s.tbl.getD j default).cluster = CLabel.unassigned ∧
          ((expandCluster minPts eps (s.counter + 1) fuel R.neigh R.neigh R.tbl
            (s.log ++ R.comp)).1.getD j default).cluster = CLabel.cid (s.counter + 1)) := by
      intro j
      rcases hpres.2.2.2 j with h | ⟨ha, hb⟩
      · exact Or.inl (h.trans (hrclus j))
      · rw [hrclus j] at ha
        exact Or.inr ⟨ha, hb⟩
    refine ⟨?_, ?_, ?_, ?_, ?_, ?_, ?_⟩
    · exact hpres.1.trans hrlen
    · exact fun j => (hpres.2.1 j).trans (hrobjs j)
    · exact hpres.2.2.1 hrtr
    · intro j hjlen hjP hjnc
      by_cases hji : j = i
      · subst hji
        omega
      · have hold := hnd j hjlen (hnotmem j hji hjP) hjnc
        rcases hdlab j with h | ⟨ha, _⟩
        · exact h.trans hold
        · rw [hold] at ha
          exact absurd ha (by simp)
    · intro j hjlen hcl
      rcases hdlab j with h | ⟨_, hb⟩
      · rw [hcl] at h
        exact hno j hjlen h.symm
      · rw [hcl] at hb
        exact absurd hb (by simp)
    · intro j hjlen hjP
      by_cases hji : j = i
      · subst hji
        by_cases hscl : (s.tbl.getD j default).cluster = CLabel.unassigned
        · have hreach := expandCluster_reaches minPts eps (s.counter + 1) fuel R.neigh R.neigh
            R.tbl (s.log ++ R.comp) j himem (by rw [hrlen]; exact hjlen)
            (by rw [hrclus]; exact hscl)
          rw [hreach]
          simp
        · rcases hdlab j with h | ⟨ha, _⟩
          · rw [h]
            exact hscl
          · exact absurd ha hscl
      · have hold := has j hjlen (hnotmem j hji hjP)
        rcases hdlab j with h | ⟨_, hb⟩
        · rw [h]
          exact hold
        · rw [hb]
          simp
    · intro j k hk
      rcases hdlab j with h | ⟨_, hb⟩
      · have hs := hle j k (h.symm.trans hk)
        exact ⟨hs.1, hs.2.trans (Nat.le_succ _)⟩
      · have hkC : CLabel.cid k = CLabel.cid (s.counter + 1) := hk.symm.trans hb
        have : k = s.counter + 1 := by injection hkC
        subst this
        exact ⟨by omega, le_refl _⟩

theorem runLoop_inv {data : List (List ℚ)} {eps : ℚ} {minPts fuel : Nat} (heps : 0 < eps) :
    ∀ (P : List Nat) (s : RState), (∀ x ∈ P, x < data.length) →
      Inv data eps minPts P s → Inv data eps minPts [] (runLoop fuel eps minPts s P) := by
  intro P
  induction P with
  | nil => intro s _ h; exact h
  | cons i rest ih =>
    intro s hP h
    have hi : i < data.length := hP i (List.mem_cons_self i rest)
    simp only [runLoop, List.foldl_cons]
    exact ih (scanStep fuel eps minPts s i) (fun x hx => hP x (List.mem_cons_of_mem i hx))
      (scanStep_inv heps h hi)

theorem init_inv (data : List (List ℚ)) (eps : ℚ) (minPts : Nat) :
    Inv data eps minPts (List.range data.length) ⟨0, initTbl data, []⟩ := by
  refine ⟨length_initTbl data, ?_, initTbl_truthful eps data, ?_, ?_, ?_, ?_⟩
  · intro j
    rw [objAt, getD_initTbl]
  · intro j hj hjP _
    exact absurd (List.mem_range.mpr hj) hjP
  · intro j _ hcl
    rw [getD_initTbl] at hcl
    exact absurd hcl (by simp)
  · intro j hj hjP
    exact absurd (List.mem_range.mpr hj) hjP
  · intro j k hk
    rw [getD_initTbl] at hk
    exact absurd hk (by simp)

theorem runState_inv (data : List (List ℚ)) (eps : ℚ) (minPts : Nat) (heps : 0 < eps) :
    Inv data eps minPts [] (runState data eps minPts) := by
  simp only [runState]
  rw [scanOrder_initTbl]
  exact runLoop_inv heps _ _ (fun x hx => List.mem_range.mp hx) (init_inv data eps minPts)

/-- Characterization of the final noise set: a point ends the run labeled
noise exactly when its mathematical neighborhood is smaller than
`minPts`. -/
theorem run_noise_iff (data : List (List ℚ)) (eps : ℚ) (minPts : Nat) (heps : 0 < eps)
    (j : Nat) (hj : j < data.length) :
    ((run data eps minPts).getD j default).cluster = CLabel.noise ↔
      (trueNbhdD data eps j).length < minPts := by
  have h := runState_inv data eps minPts heps
  exact ⟨h.noiseOnly j hj, h.noiseDone j hj (List.not_mem_nil j)⟩

/-! ### Noise persistence and noise counting -/

theorem trueNbhd_congr {t1 t2 : List Meta} {eps : ℚ}
    (h1 : t2.length = t1.length) (h2 : ∀ j, objAt t2 j = objAt t1 j) (i : Nat) :
    trueNbhd t2 eps i = trueNbhd t1 eps i := by
  unfold trueNbhd
  rw [h1]
  apply List.filter_congr
  intro t _
  rw [h2, h2]

/-- The cluster labels are untouched by marking a point visited and querying
its neighborhood (the first half of a scan step). -/
theorem scanPrep_cluster (tbl : List Meta) (i : Nat) (eps : ℚ) (j : Nat) :
    ((neighborhood (upd tbl i (fun m => { m with visited := true })) i eps).tbl.getD
      j default).cluster = (tbl.getD j default).cluster := by
  by_cases hj : j = i
  · subst hj
    refine ((nb_row_i _ _ _).2.1).trans ?_
    rw [getD_upd]
    split <;> rfl
  · rw [nb_getD_ne _ _ _ hj, getD_upd_ne _ _ _ (fun hc => hj hc.symm)]

theorem scanStep_noise (fuel : Nat) (eps : ℚ) (minPts : Nat) (s : RState) (i j : Nat)
    (h : (s.tbl.getD j default).cluster = CLabel.noise) :
    ((scanStep fuel eps minPts s i).tbl.getD j default).cluster = CLabel.noise := by
  simp only [scanStep]
  split
  · rw [getD_upd]
    split
    · rfl
    · rw [scanPrep_cluster]
      exact h
  · rcases (expandCluster_pres minPts eps (s.counter + 1) fuel _ _ _ _).2.2.2 j with hp | ⟨ha, _⟩
    · rw [hp, scanPrep_cluster]
      exact h
    · rw [scanPrep_cluster, h] at ha
      exact absurd ha (by simp)

theorem countP_getD (p : Meta → Bool) :
    ∀ (tbl : List Meta),
      tbl.countP p = (List.range tbl.length).countP (fun j => p (tbl.getD j default)) := by
  intro tbl
  induction tbl with
  | nil => rfl
  | cons m t ih =>
    rw [List.countP_cons, List.length_cons, List.range_succ_eq_map, List.countP_cons,
      List.countP_map]
    have hcomp : ((fun j => p ((m :: t).getD j default)) ∘ Nat.succ)
        = (fun j => p (t.getD j default)) := by
      funext j
      simp [List.getD_cons_succ]
    rw [hcomp, ← ih]
    simp [List.getD_cons_zero]

theorem noiseCount_char (data : List (List ℚ)) (eps : ℚ) (minPts : Nat) (heps : 0 < eps) :
    noiseCount data eps minPts
      = (List.range data.length).countP
          (fun j => decide ((trueNbhdD data eps j).length < minPts)) := by
  unfold noiseCount
  rw [← List.countP_eq_length_filter, countP_getD]
  have hlen : (run data eps minPts).length = data.length := (runState_inv data eps minPts heps).len
  rw [hlen, List.countP_eq_length_filter, List.countP_eq_length_filter]
  congr 1
  apply List.filter_congr
  intro j hj
  rw [decide_eq_decide]
  exact run_noise_iff data eps minPts heps j (List.mem_range.mp hj)

/-- Neighborhoods only grow when `eps` grows. -/
theorem trueNbhdD_mono (data : List (List ℚ)) {eps1 eps2 : ℚ} (h1 : 0 < eps1)
    (h12 : eps1 ≤ eps2) (j : Nat) :
    (trueNbhdD data eps1 j).length ≤ (trueNbhdD data eps2 j).length := by
  unfold trueNbhdD
  rw [← List.countP_eq_length_filter, ← List.countP_eq_length_filter]
  apply List.countP_mono_left
  intro t _ ht
  rcases Bool.or_eq_true_iff.mp ht with h | h
  · exact Bool.or_eq_true_iff.mpr (Or.inl h)
  · apply Bool.or_eq_true_iff.mpr
    right
    rw [nearB, decide_eq_true_eq] at h ⊢
    exact lt_of_lt_of_le h (pow_le_pow_left₀ (le_of_lt h1) h12 2)

/-! ### The claims -/

/-- C4: for a table of points sharing one dimension set whose cache agrees
with the strict threshold test, the neighbor query for target `i` returns
exactly the indices within `eps` of the target together with `i` itself,
without duplicates, in ascending (table iteration) order. -/
theorem c4_neighbor_query_exact (tbl : List Meta) (i : Nat) (eps : ℚ)
    (hdim : ∀ p ∈ tbl, ∀ q ∈ tbl, p.obj.length = q.obj.length)
    (ht : CacheTruthful eps tbl) (heps : 0 < eps) (hi : i < tbl.length) :
    (neighborhood tbl i eps).neigh = trueNbhd tbl eps i ∧
    (∀ j, j ∈ (neighborhood tbl i eps).neigh ↔ (j < tbl.length ∧ (j = i ∨
      Real.sqrt ((sqDist (objAt tbl i) (objAt tbl j) : ℚ) : ℝ) < (eps : ℝ)))) ∧
    List.Pairwise (fun a b => a < b) (neighborhood tbl i eps).neigh ∧
    (neighborhood tbl i eps).neigh.Nodup := by
  have hcor := nb_correct tbl i eps heps ht
  refine ⟨hcor, ?_, ?_, ?_⟩
  · intro j
    rw [hcor]
    unfold trueNbhd
    rw [List.mem_filter, List.mem_range]
    constructor
    · rintro ⟨hr, hp⟩
      refine ⟨hr, ?_⟩
      rcases Bool.or_eq_true_iff.mp hp with h | h
      · exact Or.inl (by simpa using h)
      · exact Or.inr ((sqrt_dist_lt_iff _ _ heps).mpr h)
    · rintro ⟨hr, hp⟩
      refine ⟨hr, ?_⟩
      rcases hp with h | h
      · exact Bool.or_eq_true_iff.mpr (Or.inl (by simpa using h))
      · exact Bool.or_eq_true_iff.mpr (Or.inr ((sqrt_dist_lt_iff _ _ heps).mp h))
  · rw [hcor]
    exact (List.pairwise_lt_range _).filter _
  · rw [hcor]
    exact List.Pairwise.imp (fun h => Nat.ne_of_lt h) ((List.pairwise_lt_range _).filter _)

theorem c4_neighbor_query_exact_witness :
    (neighborhood (initTbl [[0], [1]]) 0 2).neigh = trueNbhd (initTbl [[0], [1]]) 2 0 :=
  (c4_neighbor_query_exact (initTbl [[0], [1]]) 0 2 (by decide)
    (initTbl_truthful 2 [[0], [1]]) (by decide) (by decide)).1

/-- C10: a neighbor query mutates only the target's own neighbor cache:
the table length, every other row, and the target's visited flag, cluster
label and raw point are unchanged. -/
theorem c10_neighbor_query_frame (tbl : List Meta) (i : Nat) (eps : ℚ) :
    (neighborhood tbl i eps).tbl.length = tbl.length ∧
    (∀ j, j ≠ i → ((neighborhood tbl i eps).tbl).getD j default = tbl.getD j default) ∧
    (((neighborhood tbl i eps).tbl).getD i default).visited = (tbl.getD i default).visited ∧
    (((neighborhood tbl i eps).tbl).getD i default).cluster = (tbl.getD i default).cluster ∧
    (((neighborhood tbl i eps).tbl).getD i default).obj = (tbl.getD i default).obj :=
  ⟨nb_length tbl i eps, fun _ hj => nb_getD_ne tbl i eps hj, (nb_row_i tbl i eps).1,
    (nb_row_i tbl i eps).2.1, (nb_row_i tbl i eps).2.2⟩

theorem c10_neighbor_query_frame_witness :
    ((neighborhood (initTbl [[0], [1]]) 0 2).tbl).getD 1 default
      = (initTbl [[0], [1]]).getD 1 default :=
  (c10_neighbor_query_frame (initTbl [[0], [1]]) 0 2).2.1 1 (by decide)

/-- C2, counterexample: in a two-point table the query for point 0 computes
the distance to point 1 and sets only point 0's cache entry — point 1's
entry for point 0 stays unknown, although the claim says both are set; and
in the run on `data4` the distance of the unordered pair (2, 3) is computed
twice, refuting "at most once across the whole run". -/
theorem c2_cex_one_directional_write :
    ((0, 1) ∈ (neighborhood (initTbl [[0], [1]]) 0 2).comp ∧
      (((neighborhood (initTbl [[0], [1]]) 0 2).tbl).getD 0 default).neighbors 1 = some true ∧
      (((neighborhood (initTbl [[0], [1]]) 0 2).tbl).getD 1 default).neighbors 0 = none) ∧
    List.count ((2, 3) : Nat × Nat) (runState data4 2 3).log = 2 := by
  exact ⟨⟨by decide, by decide, by decide⟩, by decide⟩

/-- C2, amended: when the query for `i` computes the distance to `t`, row
`i`'s entry for `t` is set immediately afterwards while row `t` is
unchanged; a pair whose comparison is already cached in the other row is
never computed; hence a subsequent query for `t` does not recompute the
pair in the other direction. -/
theorem c2_amended_cache_one_directional (tbl : List Meta) (i : Nat) (eps : ℚ) (t : Nat) :
    (i < tbl.length → (i, t) ∈ (neighborhood tbl i eps).comp →
      ((((neighborhood tbl i eps).tbl).getD i default).neighbors t
        = some (nearB eps (objAt tbl i) (objAt tbl t)) ∧
      ((neighborhood tbl i eps).tbl).getD t default = tbl.getD t default)) ∧
    (∀ b, (tbl.getD t default).neighbors i = some b →
      (i, t) ∉ (neighborhood tbl i eps).comp) ∧
    (i < tbl.length → (i, t) ∈ (neighborhood tbl i eps).comp →
      (t, i) ∉ (neighborhood ((neighborhood tbl i eps).tbl) t eps).comp) := by
  refine ⟨?_, ?_, ?_⟩
  · intro hi hmem
    obtain ⟨htlen, hti, hnone⟩ := (nb_comp_mem tbl i eps t).mp hmem
    exact ⟨nb_cache_computed tbl i eps t hi htlen hti hnone, nb_getD_ne tbl i eps hti⟩
  · intro b hb hmem
    obtain ⟨-, -, hnone⟩ := (nb_comp_mem tbl i eps t).mp hmem
    rw [hb] at hnone
    exact Option.noConfusion hnone
  · intro hi hmem hmem2
    obtain ⟨htlen, hti, hnone⟩ := (nb_comp_mem tbl i eps t).mp hmem
    have hset := nb_cache_computed tbl i eps t hi htlen hti hnone
    obtain ⟨-, -, hnone2⟩ := (nb_comp_mem _ t eps i).mp hmem2
    rw [hset] at hnone2
    exact Option.noConfusion hnone2

theorem c2_amended_cache_one_directional_witness :
    (((neighborhood (initTbl [[0], [1]]) 0 2).tbl).getD 0 default).neighbors 1
      = some (nearB 2 (objAt (initTbl [[0], [1]]) 0) (objAt (initTbl [[0], [1]]) 1)) :=
  ((c2_amended_cache_one_directional (initTbl [[0], [1]]) 0 2 1).1 (by decide) (by decide)).1

/-- C1, counterexample: in the run on `data4` with eps = 2, minPts = 3, the
scan discovers the dense seed point 1 and creates cluster 1; point 0 is
density-reachable from that seed, yet it ends the run labeled noise rather
than with the cluster identifier. -/
theorem c1_cex_reachable_point_stays_noise :
    DensityReachable data4 2 3 1 0 ∧
    3 ≤ (trueNbhdD data4 2 1).length ∧
    ((run data4 2 3).getD 1 default).cluster = CLabel.cid 1 ∧
    ((run data4 2 3).getD 0 default).cluster = CLabel.noise :=
  ⟨DensityReachable.direct 1 0 (by decide) (by decide), by decide, by decide, by decide⟩

/-- C1, amended: a cluster-expansion call labels with its cluster
identifier every frontier point that denotes an existing row and is
unassigned when the call starts; every other label is left exactly as it
was (in particular noise and earlier cluster labels are kept). -/
theorem c1_amended_expansion_labels_unassigned (minPts : Nat) (eps : ℚ) (c fuel : Nat)
    (neigh : List Nat) (tbl : List Meta) (log : List (Nat × Nat)) :
    (∀ j, j ∈ neigh → j < tbl.length →
      (tbl.getD j default).cluster = CLabel.unassigned →
      ((expandCluster minPts eps c fuel neigh neigh tbl log).1.getD j default).cluster
        = CLabel.cid c) ∧
    (∀ j, ((expandCluster minPts eps c fuel neigh neigh tbl log).1.getD j default).cluster
        = (tbl.getD j default).cluster ∨
      ((tbl.getD j default).cluster = CLabel.unassigned ∧
        ((expandCluster minPts eps c fuel neigh neigh tbl log).1.getD j default).cluster
          = CLabel.cid c)) :=
  ⟨fun j hj hjl hun => expandCluster_reaches minPts eps c fuel neigh neigh tbl log j hj hjl hun,
    fun j => (expandCluster_pres minPts eps c fuel neigh neigh tbl log).2.2.2 j⟩

theorem c1_amended_expansion_labels_unassigned_witness :
    ((expandCluster 3 2 7 2 [0, 1] [0, 1] (initTbl [[0], [1]]) []).1.getD 0 default).cluster
      = CLabel.cid 7 :=
  (c1_amended_expansion_labels_unassigned 3 2 7 2 [0, 1] (initTbl [[0], [1]]) []).1 0
    (by decide) (by decide) (by decide)

/-- C3: the unvisited filter of the scan is evaluated once, before any
visiting, so it returns every index; in the run on `data4` point 2 is
already visited when its scan turn comes (it was visited while cluster 1
expanded), yet the scan still processes it and allocates cluster 2 for it,
whereas the scan that skips visited points allocates only one identifier. -/
theorem c3_eager_filter_processes_visited :
    scanOrder (initTbl data4) = [0, 1, 2, 3] ∧
    ((runLoop 4 2 3 ⟨0, initTbl data4, []⟩ [0, 1]).tbl.getD 2 default).visited = true ∧
    (runState data4 2 3).counter = 2 ∧
    (runSkipState data4 2 3).counter = 1 :=
  ⟨by decide, by decide, by decide, by decide⟩

/-- C6: in the run on `data4`, point 3 is labeled with cluster identifier 2
during cluster 2's expansion, and its own later scan turn overwrites that
positive label with noise. -/
theorem c6_positive_label_clobbered :
    ((runLoop 4 2 3 ⟨0, initTbl data4, []⟩ [0, 1, 2]).tbl.getD 3 default).cluster
      = CLabel.cid 2 ∧
    ((run data4 2 3).getD 3 default).cluster = CLabel.noise :=
  ⟨by decide, by decide⟩

/-- C5, counterexample: in the run on `data5`, identifier 4 is used but
identifier 2 is not, so the set of positive identifiers used is not a
contiguous range starting at 1. -/
theorem c5_cex_identifier_gap :
    ((run data5 2 2).map (fun m => m.cluster))
      = [CLabel.cid 1, CLabel.cid 1, CLabel.cid 1, CLabel.cid 4, CLabel.cid 4] ∧
    (∃ j, j < 5 ∧ ((run data5 2 2).getD j default).cluster = CLabel.cid 4) ∧
    (∀ j, ((run data5 2 2).getD j default).cluster ≠ CLabel.cid 2) := by
  refine ⟨by decide, ⟨3, by decide, by decide⟩, ?_⟩
  intro j
  by_cases h5 : j < 5
  · interval_cases j <;> decide
  · rw [List.getD_eq_default]
    · decide
    · have : (run data5 2 2).length = 5 := by decide
      omega

/-- C5, amended: every record of the returned table is labeled noise or
with a cluster identifier between 1 and the final value of the cluster
counter; the used identifiers need not cover that range (allocated
identifiers can end the run with no member, see the counterexample). -/
theorem c5_amended_labels_bounded (data : List (List ℚ)) (eps : ℚ) (minPts : Nat)
    (heps : 0 < eps) (j : Nat) (hj : j < data.length) :
    ((run data eps minPts).getD j default).cluster = CLabel.noise ∨
    ∃ k, 1 ≤ k ∧ k ≤ (runState data eps minPts).counter ∧
      ((run data eps minPts).getD j default).cluster = CLabel.cid k := by
  have h := runState_inv data eps minPts heps
  have hne := h.assigned j hj (List.not_mem_nil j)
  cases hcl : ((run data eps minPts).getD j default).cluster with
  | unassigned => exact absurd hcl hne
  | noise => exact Or.inl rfl
  | cid k =>
    have hb := h.labelsLe j k hcl
    exact Or.inr ⟨k, hb.1, hb.2, rfl⟩

theorem c5_amended_labels_bounded_witness :
    ((run data4 2 3).getD 0 default).cluster = CLabel.noise ∨
    ∃ k, 1 ≤ k ∧ k ≤ (runState data4 2 3).counter ∧
      ((run data4 2 3).getD 0 default).cluster = CLabel.cid k :=
  c5_amended_labels_bounded data4 2 3 (by decide) 0 (by decide)

/-- C8: a noise label is never changed afterwards: from any state, the rest
of the scan (with its expansions) keeps it, and any cluster-expansion call
keeps it. -/
theorem c8_noise_sticky :
    (∀ (fuel : Nat) (eps : ℚ) (minPts : Nat) (s : RState) (pending : List Nat) (j : Nat),
      (s.tbl.getD j default).cluster = CLabel.noise →
      ((runLoop fuel eps minPts s pending).tbl.getD j default).cluster = CLabel.noise) ∧
    (∀ (minPts : Nat) (eps : ℚ) (c fuel : Nat) (neigh pending : List Nat) (tbl : List Meta)
      (log : List (Nat × Nat)) (j : Nat),
      (tbl.getD j default).cluster = CLabel.noise →
      ((expandCluster minPts eps c fuel neigh pending tbl log).1.getD j default).cluster
        = CLabel.noise) := by
  constructor
  · intro fuel eps minPts s pending
    induction pending generalizing s with
    | nil => intro j h; exact h
    | cons i rest ih =>
      intro j h
      simp only [runLoop, List.foldl_cons]
      exact ih (scanStep fuel eps minPts s i) j (scanStep_noise fuel eps minPts s i j h)
  · intro minPts eps c fuel neigh pending tbl log j h
    rcases (expandCluster_pres minPts eps c fuel neigh pending tbl log).2.2.2 j with hp | ⟨ha, _⟩
    · exact hp.trans h
    · rw [h] at ha
      exact absurd ha (by simp)

theorem c8_noise_sticky_witness :
    ((runLoop 1 2 1 ⟨0, [⟨true, fun _ => none, CLabel.noise, [0]⟩], []⟩ [0]).tbl.getD
      0 default).cluster = CLabel.noise :=
  c8_noise_sticky.1 1 2 1 ⟨0, [⟨true, fun _ => none, CLabel.noise, [0]⟩], []⟩ [0] 0 (by decide)

/-- C9: with `minPts` fixed and positive, enlarging `eps` never increases
the number of points the run labels noise. -/
theorem c9_noise_monotone (data : List (List ℚ)) (eps1 eps2 : ℚ) (minPts : Nat)
    (hm : 0 < minPts) (h1 : 0 < eps1) (h12 : eps1 ≤ eps2) :
    noiseCount data eps2 minPts ≤ noiseCount data eps1 minPts := by
  have h2 : 0 < eps2 := lt_of_lt_of_le h1 h12
  rw [noiseCount_char data eps1 minPts h1, noiseCount_char data eps2 minPts h2]
  apply List.countP_mono_left
  intro j _ hj
  rw [decide_eq_true_eq] at hj ⊢
  have := trueNbhdD_mono data h1 h12 j
  omega

theorem c9_noise_monotone_witness : noiseCount data4 3 3 ≤ noiseCount data4 2 3 :=
  c9_noise_monotone data4 2 3 3 (by decide) (by decide) (by decide)

/-- C7: the two density thresholds differ by one: a scan turn allocates a
new cluster identifier exactly when the point's neighborhood size is at
least `minPts` (and labels it noise when it is smaller), while one
expansion step requests the recursive expansion through its neighbor
exactly when the neighbor was unvisited and its own neighborhood size is
strictly greater than `minPts`. -/
theorem c7_threshold_conventions :
    (∀ (fuel : Nat) (eps : ℚ) (minPts : Nat) (s : RState) (i : Nat), 0 < eps →
      CacheTruthful eps s.tbl →
      ((minPts ≤ (trueNbhd s.tbl eps i).length →
        (scanStep fuel eps minPts s i).counter = s.counter + 1) ∧
      ((trueNbhd s.tbl eps i).length < minPts →
        (scanStep fuel eps minPts s i).counter = s.counter ∧
        (i < s.tbl.length →
          ((scanStep fuel eps minPts s i).tbl.getD i default).cluster = CLabel.noise)))) ∧
    (∀ (minPts : Nat) (eps : ℚ) (c : Nat) (neigh : List Nat) (ni : Nat) (tbl : List Meta),
      0 < eps → CacheTruthful eps tbl →
      ((expandVisit minPts eps c neigh ni tbl).2.2 ≠ none ↔
        ((tbl.getD ni default).visited = false ∧
          minPts < (trueNbhd tbl eps ni).length))) := by
  constructor
  · intro fuel eps minPts s i heps htr
    simp only [scanStep]
    set T1 := upd s.tbl i (fun m => { m with visited := true }) with hT1
    have hT1len : T1.length = s.tbl.length := by rw [hT1, length_upd]
    have hT1obj : ∀ j, objAt T1 j = objAt s.tbl j :=
      objAt_upd_preserve s.tbl i (fun m => { m with visited := true }) (fun m => rfl)
    have hT1tr : CacheTruthful eps T1 :=
      truthful_upd_keep s.tbl i (fun m => { m with visited := true })
        (fun m => rfl) (fun m => rfl) htr
    have hrn : (neighborhood T1 i eps).neigh = trueNbhd s.tbl eps i := by
      rw [nb_correct T1 i eps heps hT1tr]
      exact trueNbhd_congr hT1len hT1obj i
    split
    next hsmall =>
      rw [hrn] at hsmall
      refine ⟨fun hc => absurd hsmall (by omega), fun _ => ⟨rfl, fun hi => ?_⟩⟩
      rw [getD_upd_self _ _ _ (by rw [nb_length, hT1len]; exact hi)]
    next hbig =>
      rw [hrn] at hbig
      exact ⟨fun _ => rfl, fun hc => absurd hc (by omega)⟩
  · intro minPts eps c neigh ni tbl heps htr
    simp only [expandVisit]
    set T1 := (if (tbl.getD ni default).cluster = CLabel.unassigned then
        upd tbl ni (fun m => { m with cluster := CLabel.cid c }) else tbl) with hT1
    have hT1len : T1.length = tbl.length := by
      rw [hT1]
      split
      · exact length_upd tbl ni _
      · rfl
    have hT1obj : ∀ j, objAt T1 j = objAt tbl j := by
      intro j
      rw [hT1]
      split
      · exact objAt_upd_preserve tbl ni (fun m => { m with cluster := CLabel.cid c })
          (fun m => rfl) j
      · rfl
    have hT1tr : CacheTruthful eps T1 := by
      rw [hT1]
      split
      · exact truthful_upd_keep tbl ni (fun m => { m with cluster := CLabel.cid c })
          (fun m => rfl) (fun m => rfl) htr
      · exact htr
    have hT1vis : (T1.getD ni default).visited = (tbl.getD ni default).visited := by
      rw [hT1]
      split
      · rw [getD_upd]
        split <;> rfl
      · rfl
    split
    next hvis =>
      constructor
      · intro hc
        exact absurd rfl hc
      · rintro ⟨hfalse, -⟩
        rw [hT1vis, hfalse] at hvis
        exact Bool.noConfusion hvis
    next hvis =>
      have hvisf : (tbl.getD ni default).visited = false := by
        rw [← hT1vis]
        cases hb : (T1.getD ni default).visited
        · rfl
        · exact absurd hb hvis
      have hT2tr : CacheTruthful eps (upd T1 ni (fun m => { m with visited := true })) :=
        truthful_upd_keep T1 ni (fun m => { m with visited := true })
          (fun m => rfl) (fun m => rfl) hT1tr
      have hrn : (neighborhood (upd T1 ni (fun m => { m with visited := true })) ni eps).neigh
          = trueNbhd tbl eps ni := by
        rw [nb_correct _ _ _ heps hT2tr]
        exact trueNbhd_congr (by rw [length_upd, hT1len])
          (fun j => (objAt_upd_preserve T1 ni (fun m => { m with visited := true })
            (fun m => rfl) j).trans (hT1obj j)) ni
      split
      next hd =>
        rw [hrn] at hd
        exact ⟨fun _ => ⟨hvisf, hd⟩, fun _ => by simp⟩
      next hd =>
        rw [hrn] at hd
        exact ⟨fun hc => absurd rfl hc, fun hcon => absurd hcon.2 hd⟩

theorem c7_threshold_conventions_witness :
    (scanStep 2 2 1 ⟨0, initTbl [[0], [1]], []⟩ 0).counter = 0 + 1 ∧
    ((expandVisit 1 2 5 [0] 0 (initTbl [[0], [1]])).2.2 ≠ none ↔
      (((initTbl [[0], [1]]).getD 0 default).visited = false ∧
        1 < (trueNbhd (initTbl [[0], [1]]) 2 0).length)) :=
  ⟨(c7_threshold_conventions.1 2 2 1 ⟨0, initTbl [[0], [1]], []⟩ 0 (by decide)
      (initTbl_truthful 2 [[0], [1]])).1 (by decide),
    c7_threshold_conventions.2 1 2 5 [0] 0 (initTbl [[0], [1]]) (by decide)
      (initTbl_truthful 2 [[0], [1]])⟩

end ClusterJS
